import Mathlib

/-!
Verification of the frozendict repository (src/frozendict.py): an
immutable mapping backed by a (left-leaning red-black style) binary
search tree.

The embedding mirrors the Python source:

* Python's `RBColor` is an `Enum` whose members are `black = False` and
  `red = True`.  In Python, *every* `Enum` member is truthy, and
  `not member` is `False` for both members; `flip_colors` therefore
  produces plain booleans.  The color domain that actually arises at
  runtime is {RBColor.black, RBColor.red, True, False}; we model this
  with `PyColor` (constructors `rbBlack`, `rbRed`, `pyTrue`, `pyFalse`)
  together with Python truthiness (`PyColor.truthy`) and Python `not`
  (`PyColor.pyNot`).
* `RBNode` / `None` become the inductive `Tree` (constructor field
  order follows the dataclass: key, value, right, left, color; `nil`
  is Python's `None`).
* `insert` rebinds its local `h` and recurses on a possibly recolored
  child, so it is given here as a fuel-indexed structurally recursive
  function `insertFuel`; `insert t` runs it with fuel `node_len t + 1`,
  which is always sufficient (each recursive call descends into a
  strict subtree, modulo recoloring, which preserves `node_len`).
-/

namespace Frozen

/-- Runtime color values of the Python program: the two `RBColor`
members plus the two booleans produced by `flip_colors`. -/
inductive PyColor : Type where
  | rbBlack
  | rbRed
  | pyTrue
  | pyFalse
deriving DecidableEq, Repr

/-- Python truthiness of a color value: `Enum` members are always
truthy; of the booleans only `True` is. -/
def PyColor.truthy : PyColor → Bool
  | .rbBlack => true
  | .rbRed => true
  | .pyTrue => true
  | .pyFalse => false

/-- Python `not` applied to a color value (used by `flip_colors`):
always returns a plain boolean. -/
def PyColor.pyNot (c : PyColor) : PyColor :=
  if c.truthy then .pyFalse else .pyTrue

/-- `RBNode` trees: `nil` is Python's `None`; `node` fields follow the
dataclass declaration order `key value right left color`. -/
inductive Tree (α β : Type) : Type where
  | nil
  | node (key : α) (value : β) (right : Tree α β) (left : Tree α β) (color : PyColor)
deriving DecidableEq

namespace Tree

variable {α β : Type}

/-- Python's `h.left` (reads `nil` as an absent child). -/
def left : Tree α β → Tree α β
  | .nil => .nil
  | .node _ _ _ l _ => l

/-- Python's `h.right` (reads `nil` as an absent child). -/
def right : Tree α β → Tree α β
  | .nil => .nil
  | .node _ _ r _ _ => r

end Tree

/-- `node_len` from the source: recursive node count. -/
def node_len : Tree α β → Nat
  | .nil => 0
  | .node _ _ r l _ => 1 + node_len l + node_len r

/-- `is_red` from the source: `node and node.color`, i.e. the Python
truthiness of the node's color (false for an absent node).  Note that
`RBColor.black` is truthy, so nodes colored with the enum's black
member also count as red here. -/
def is_red : Tree α β → Bool
  | .nil => false
  | .node _ _ _ _ c => c.truthy

/-- The recoloring `replace(child, color=not child.color)` performed by
`flip_colors` on one child.  (In the source this is only reached for
present children; on `nil` we return `nil`, which is never exercised by
`insert` because the call is guarded by `is_red` on both children.) -/
def flip_child : Tree α β → Tree α β
  | .nil => .nil
  | .node k v r l c => .node k v r l c.pyNot

/-- `RBNode.flip_colors`: replace the node's color and both children's
colors by their Python negation. -/
def flip_colors : Tree α β → Tree α β
  | .nil => .nil
  | .node k v r l c => .node k v (flip_child r) (flip_child l) c.pyNot

/-- `RBNode.rotate_left`: promote the right child; the demoted node is
colored `RBColor.red`, the promoted node inherits the old color.  (Only
reached with a present right child; otherwise the Python code would
fault, and `insert` guards the call with `is_red`.) -/
def rotate_left : Tree α β → Tree α β
  | .node k v (.node rk rv rr rl _) l c =>
      .node rk rv rr (.node k v rl l .rbRed) c
  | t => t

/-- `RBNode.rotate_right`: mirror image of `rotate_left`. -/
def rotate_right : Tree α β → Tree α β
  | .node k v r (.node lk lv lr ll _) c =>
      .node lk lv (.node k v r lr .rbRed) ll c
  | t => t

/-- The color-flip step at the top of `insert`:
`if is_red(h.left) and is_red(h.right): h = h.flip_colors()`. -/
def flip_step (h : Tree α β) : Tree α β :=
  if is_red h.left && is_red h.right then flip_colors h else h

/-- The first rebalancing step of `insert`:
`if is_red(h.right) and not is_red(h.left): h = h.rotate_left()`. -/
def rotl_step (h : Tree α β) : Tree α β :=
  if is_red h.right && !(is_red h.left) then rotate_left h else h

/-- The second rebalancing step of `insert`:
`if is_red(h.left) and is_red(h.left.left): h = h.rotate_right()`. -/
def rotr_step (h : Tree α β) : Tree α β :=
  if is_red h.left && is_red h.left.left then rotate_right h else h

/-- Both rebalancing steps of `insert`, in source order. -/
def fixUp (h : Tree α β) : Tree α β :=
  rotr_step (rotl_step h)

/-- Fuel-indexed translation of the source's `insert`.  With fuel `0`
it returns `nil`; `insert` below always supplies sufficient fuel.  The
body follows the source line by line: replace an absent subtree by a
fresh node (default color `RBColor.black`!), flip colors when both
children are red, compare the key and recurse, then rebalance. -/
def insertFuel [LinearOrder α] : Nat → Tree α β → α → β → Tree α β
  | 0, _, _, _ => .nil
  | fuel + 1, h, key, value =>
    match flip_step (match h with | .nil => Tree.node key value .nil .nil .rbBlack | t => t) with
    | .nil => .nil
    | .node k v r l c =>
      fixUp (if key = k then .node k value r l c
             else if key < k then .node k v r (insertFuel fuel l key value) c
             else .node k v (insertFuel fuel r key value) l c)

/-- `insert(h, key, value)` from the source. -/
def insert [LinearOrder α] (h : Tree α β) (key : α) (value : β) : Tree α β :=
  insertFuel (node_len h + 1) h key value

/-- `RBNode.search`, at tree level: the while loop descending by
comparisons; reaching an absent child means `KeyError`, modelled as
`none`. -/
def search [LinearOrder α] : Tree α β → α → Option β
  | .nil, _ => none
  | .node k v r l _, key =>
      if key = k then some v
      else if key < k then search l key
      else search r key

/-- `iter_keys`: in-order key sequence, as a list. -/
def keysList : Tree α β → List α
  | .nil => []
  | .node k _ r l _ => keysList l ++ k :: keysList r

/-- Building a tree from a sequence of inserts starting from `None`,
as `FrozenDict.__init__` does for an iterable of key/value pairs. -/
def buildTree [LinearOrder α] (ps : List (α × β)) : Tree α β :=
  ps.foldl (fun t p => insert t p.1 p.2) .nil

/-- The errors the facade can raise on lookup: `KeyError` from
`RBNode.search`, and `AttributeError` from calling `.search` on a
`None` root. -/
inductive PyError : Type where
  | keyError
  | attributeError
deriving DecidableEq, Repr

/-- `FrozenDict.__getitem__`: `self.root.search(key)`.  When the root
is `None` (empty mapping) the attribute access itself faults. -/
def getitem [LinearOrder α] (root : Tree α β) (key : α) : Except PyError β :=
  match root with
  | .nil => .error .attributeError
  | t =>
    match search t key with
    | some v => .ok v
    | none => .error .keyError

/-- `__contains__` inherited from `collections.abc.Mapping`: call
`self[key]`, catch `KeyError` only. -/
def contains [LinearOrder α] (root : Tree α β) (key : α) : Except PyError Bool :=
  match getitem root key with
  | .ok _ => .ok true
  | .error .keyError => .ok false
  | .error e => .error e

/-! ## The claimed red-black invariants, as decidable checkers.

"Red" is the program's own notion `is_red` (Python truthiness of the
color); an absent child is black (`is_red nil = false`). -/

/-- Invariant 1 of the spec: no node has a red right child while its
left child is non-red (no right-leaning red link). -/
def noRightRedB : Tree α β → Bool
  | .nil => true
  | .node _ _ r l _ => (!(is_red r && !(is_red l))) && noRightRedB l && noRightRedB r

/-- Invariant 2 of the spec: a red node never has a red left child (no
two consecutive left red links). -/
def noRedRedLeftB : Tree α β → Bool
  | .nil => true
  | .node _ _ r l c => (!(c.truthy && is_red l)) && noRedRedLeftB l && noRedRedLeftB r

/-- Black-height of a subtree when it is consistent: every path from
the root to an absent child must pass the same number of black links
(a link is black when the child it leads to is not red; a link to an
absent child is black). -/
def bhOf : Tree α β → Option Nat
  | .nil => some 0
  | .node _ _ r l _ =>
    match bhOf l, bhOf r with
    | some bl, some br =>
      let cl := bl + (if is_red l then 0 else 1)
      let cr := br + (if is_red r then 0 else 1)
      if cl = cr then some cl else none
    | _, _ => none

/-- Conjunction of the three invariants of claim C1. -/
def llrbInvariants (t : Tree α β) : Bool :=
  noRightRedB t && noRedRedLeftB t && (bhOf t).isSome

/-! The same three invariants under the alternative reading of "red":
a node is red when its color is the *declared* red value (`RBColor.red`,
or the boolean `True` produced by flips), rather than the program's
truthiness test.  The spec's claim fails under either reading; proving
both makes the refutation independent of the reading. -/

/-- Declared-color redness: `RBColor.red` or the boolean `True`. -/
def declRed : PyColor → Bool
  | .rbRed => true
  | .pyTrue => true
  | _ => false

/-- A present node whose declared color is red. -/
def is_redS : Tree α β → Bool
  | .nil => false
  | .node _ _ _ _ c => declRed c

/-- Invariant 1 under declared colors. -/
def noRightRedS : Tree α β → Bool
  | .nil => true
  | .node _ _ r l _ => (!(is_redS r && !(is_redS l))) && noRightRedS l && noRightRedS r

/-- Invariant 2 under declared colors. -/
def noRedRedLeftS : Tree α β → Bool
  | .nil => true
  | .node _ _ r l c => (!(declRed c && is_redS l)) && noRedRedLeftS l && noRedRedLeftS r

/-- Black-height consistency under declared colors. -/
def bhOfS : Tree α β → Option Nat
  | .nil => some 0
  | .node _ _ r l _ =>
    match bhOfS l, bhOfS r with
    | some bl, some br =>
      let cl := bl + (if is_redS l then 0 else 1)
      let cr := br + (if is_redS r then 0 else 1)
      if cl = cr then some cl else none
    | _, _ => none

/-- Conjunction of the three invariants under declared colors. -/
def llrbInvariantsS (t : Tree α β) : Bool :=
  noRightRedS t && noRedRedLeftS t && (bhOfS t).isSome

/-! ## Binary-search-tree ordering invariant and its preservation. -/

/-- `p` holds for every key in the tree. -/
def AllKeys (p : α → Prop) : Tree α β → Prop
  | .nil => True
  | .node k _ r l _ => p k ∧ AllKeys p l ∧ AllKeys p r

/-- The binary-search-tree ordering invariant (colors are irrelevant). -/
inductive BST [LinearOrder α] : Tree α β → Prop where
  | nil : BST .nil
  | node {k : α} {v : β} {r l : Tree α β} {c : PyColor} :
      AllKeys (· < k) l → AllKeys (k < ·) r → BST l → BST r →
      BST (.node k v r l c)

section StructuralLemmas

variable {α β : Type}

theorem allKeys_imp {p q : α → Prop} (hpq : ∀ x, p x → q x) :
    ∀ {t : Tree α β}, AllKeys p t → AllKeys q t := by
  intro t
  induction t with
  | nil => intro; trivial
  | node k v r l c ihr ihl =>
    intro h
    exact ⟨hpq k h.1, ihl h.2.1, ihr h.2.2⟩

@[simp] theorem allKeys_flip_child {p : α → Prop} (t : Tree α β) :
    AllKeys p (flip_child t) ↔ AllKeys p t := by
  cases t <;> simp [flip_child, AllKeys]

@[simp] theorem keysList_flip_child (t : Tree α β) :
    keysList (flip_child t) = keysList t := by
  cases t <;> simp [flip_child, keysList]

@[simp] theorem node_len_flip_child (t : Tree α β) :
    node_len (flip_child t) = node_len t := by
  cases t <;> simp [flip_child, node_len]

theorem keysList_flip_colors (t : Tree α β) :
    keysList (flip_colors t) = keysList t := by
  cases t <;> simp [flip_colors, keysList]

theorem node_len_flip_colors (t : Tree α β) :
    node_len (flip_colors t) = node_len t := by
  cases t <;> simp [flip_colors, node_len]

theorem keysList_rotate_left (t : Tree α β) :
    keysList (rotate_left t) = keysList t := by
  match t with
  | .nil => rfl
  | .node k v .nil l c => rfl
  | .node k v (.node rk rv rr rl rc) l c =>
    simp [rotate_left, keysList]

theorem keysList_rotate_right (t : Tree α β) :
    keysList (rotate_right t) = keysList t := by
  match t with
  | .nil => rfl
  | .node k v r .nil c => rfl
  | .node k v r (.node lk lv lr ll lc) c =>
    simp [rotate_right, keysList]

theorem node_len_rotate_left (t : Tree α β) :
    node_len (rotate_left t) = node_len t := by
  match t with
  | .nil => rfl
  | .node k v .nil l c => rfl
  | .node k v (.node rk rv rr rl rc) l c =>
    simp [rotate_left, node_len]; omega

theorem node_len_rotate_right (t : Tree α β) :
    node_len (rotate_right t) = node_len t := by
  match t with
  | .nil => rfl
  | .node k v r .nil c => rfl
  | .node k v r (.node lk lv lr ll lc) c =>
    simp [rotate_right, node_len]; omega

theorem allKeys_rotate_left {p : α → Prop} {t : Tree α β} (h : AllKeys p t) :
    AllKeys p (rotate_left t) := by
  match t with
  | .nil => exact h
  | .node k v .nil l c => exact h
  | .node k v (.node rk rv rr rl rc) l c =>
    obtain ⟨hk, hl, hrk, hrl, hrr⟩ := h
    exact ⟨hrk, ⟨hk, hl, hrl⟩, hrr⟩

theorem allKeys_rotate_right {p : α → Prop} {t : Tree α β} (h : AllKeys p t) :
    AllKeys p (rotate_right t) := by
  match t with
  | .nil => exact h
  | .node k v r .nil c => exact h
  | .node k v r (.node lk lv lr ll lc) c =>
    obtain ⟨hk, ⟨hlk, hll, hlr⟩, hr⟩ := h
    exact ⟨hlk, hll, hk, hlr, hr⟩

end StructuralLemmas

section OrderLemmas

variable {α β : Type} [LinearOrder α]

@[simp] theorem bst_node_iff {k : α} {v : β} {r l : Tree α β} {c : PyColor} :
    BST (Tree.node k v r l c) ↔
      AllKeys (· < k) l ∧ AllKeys (k < ·) r ∧ BST l ∧ BST r := by
  constructor
  · intro h
    cases h with
    | node hl hr bl br => exact ⟨hl, hr, bl, br⟩
  · rintro ⟨hl, hr, bl, br⟩
    exact .node hl hr bl br

@[simp] theorem bst_flip_child {t : Tree α β} :
    BST (flip_child t) ↔ BST t := by
  cases t <;> simp [flip_child]

@[simp] theorem search_flip_child (t : Tree α β) (q : α) :
    search (flip_child t) q = search t q := by
  cases t <;> simp [flip_child, search]

theorem bst_rotate_left {t : Tree α β} (h : BST t) : BST (rotate_left t) := by
  match t with
  | .nil => exact h
  | .node k v .nil l c => exact h
  | .node k v (.node rk rv rr rl rc) l c =>
    rw [bst_node_iff] at h
    obtain ⟨hal, har, hbl, hbr⟩ := h
    obtain ⟨hkrk, harl, harr⟩ := har
    rw [bst_node_iff] at hbr
    obtain ⟨hbrl, hbrr, bstrl, bstrr⟩ := hbr
    refine (bst_node_iff).mpr ⟨⟨hkrk, ?_, hbrl⟩, hbrr, ?_, bstrr⟩
    · exact allKeys_imp (fun x hx => lt_trans hx hkrk) hal
    · exact (bst_node_iff).mpr ⟨hal, harl, hbl, bstrl⟩

theorem bst_rotate_right {t : Tree α β} (h : BST t) : BST (rotate_right t) := by
  match t with
  | .nil => exact h
  | .node k v r .nil c => exact h
  | .node k v r (.node lk lv lr ll lc) c =>
    rw [bst_node_iff] at h
    obtain ⟨hal, har, hbl, hbr⟩ := h
    obtain ⟨hlkk, hall, halr⟩ := hal
    rw [bst_node_iff] at hbl
    obtain ⟨hbll, hblr, bstll, bstlr⟩ := hbl
    refine (bst_node_iff).mpr ⟨hbll, ⟨hlkk, hblr, ?_⟩, bstll, ?_⟩
    · exact allKeys_imp (fun x hx => lt_trans hlkk hx) har
    · exact (bst_node_iff).mpr ⟨halr, har, bstlr, hbr⟩

theorem search_rotate_left {t : Tree α β} (h : BST t) (q : α) :
    search (rotate_left t) q = search t q := by
  match t with
  | .nil => rfl
  | .node k v .nil l c => rfl
  | .node k v (.node rk rv rr rl rc) l c =>
    rw [bst_node_iff] at h
    obtain ⟨hal, har, hbl, hbr⟩ := h
    obtain ⟨hkrk, harl, harr⟩ := har
    simp only [rotate_left, search]
    rcases lt_trichotomy q k with hq | hq | hq
    · have h1 : q < rk := lt_trans hq hkrk
      simp [ne_of_lt hq, ne_of_lt h1, hq, h1]
    · subst hq
      simp [ne_of_lt hkrk, hkrk]
    · rcases lt_trichotomy q rk with h2 | h2 | h2
      · simp [ne_of_gt hq, ne_of_lt h2, h2, not_lt_of_gt hq]
      · subst h2
        simp [ne_of_gt hq, not_lt_of_gt hq]
      · have h3 : k < q := lt_trans hkrk h2
        simp [ne_of_gt hq, ne_of_gt h2, not_lt_of_gt h2, not_lt_of_gt h3]

theorem search_rotate_right {t : Tree α β} (h : BST t) (q : α) :
    search (rotate_right t) q = search t q := by
  match t with
  | .nil => rfl
  | .node k v r .nil c => rfl
  | .node k v r (.node lk lv lr ll lc) c =>
    rw [bst_node_iff] at h
    obtain ⟨hal, har, hbl, hbr⟩ := h
    obtain ⟨hlkk, hall, halr⟩ := hal
    simp only [rotate_right, search]
    rcases lt_trichotomy q lk with hq | hq | hq
    · have h1 : q < k := lt_trans hq hlkk
      simp [ne_of_lt hq, ne_of_lt h1, hq, h1]
    · subst hq
      simp [ne_of_lt hlkk, hlkk]
    · rcases lt_trichotomy q k with h2 | h2 | h2
      · simp [ne_of_gt hq, ne_of_lt h2, h2, not_lt_of_gt hq]
      · subst h2
        simp [ne_of_gt hlkk, not_lt_of_gt hlkk]
      · have h3 : lk < q := lt_trans hlkk h2
        simp [ne_of_gt h2, ne_of_gt h3, not_lt_of_gt h2, not_lt_of_gt h3]

end OrderLemmas

/-! ## Preservation through the steps of `insert`. -/

section StepLemmas

variable {α β : Type}

theorem allKeys_flip_colors {p : α → Prop} {t : Tree α β} (h : AllKeys p t) :
    AllKeys p (flip_colors t) := by
  cases t with
  | nil => exact h
  | node k v r l c =>
    obtain ⟨hk, hl, hr⟩ := h
    exact ⟨hk, (allKeys_flip_child l).mpr hl, (allKeys_flip_child r).mpr hr⟩

theorem keysList_flip_step (t : Tree α β) :
    keysList (flip_step t) = keysList t := by
  unfold flip_step
  split
  · exact keysList_flip_colors t
  · rfl

theorem node_len_flip_step (t : Tree α β) :
    node_len (flip_step t) = node_len t := by
  unfold flip_step
  split
  · exact node_len_flip_colors t
  · rfl

theorem allKeys_flip_step {p : α → Prop} {t : Tree α β} (h : AllKeys p t) :
    AllKeys p (flip_step t) := by
  unfold flip_step
  split
  · exact allKeys_flip_colors h
  · exact h

theorem keysList_rotl_step (t : Tree α β) :
    keysList (rotl_step t) = keysList t := by
  unfold rotl_step
  split
  · exact keysList_rotate_left t
  · rfl

theorem keysList_rotr_step (t : Tree α β) :
    keysList (rotr_step t) = keysList t := by
  unfold rotr_step
  split
  · exact keysList_rotate_right t
  · rfl

theorem keysList_fixUp (t : Tree α β) :
    keysList (fixUp t) = keysList t := by
  unfold fixUp
  rw [keysList_rotr_step, keysList_rotl_step]

theorem node_len_rotl_step (t : Tree α β) :
    node_len (rotl_step t) = node_len t := by
  unfold rotl_step
  split
  · exact node_len_rotate_left t
  · rfl

theorem node_len_rotr_step (t : Tree α β) :
    node_len (rotr_step t) = node_len t := by
  unfold rotr_step
  split
  · exact node_len_rotate_right t
  · rfl

theorem node_len_fixUp (t : Tree α β) :
    node_len (fixUp t) = node_len t := by
  unfold fixUp
  rw [node_len_rotr_step, node_len_rotl_step]

theorem allKeys_rotl_step {p : α → Prop} {t : Tree α β} (h : AllKeys p t) :
    AllKeys p (rotl_step t) := by
  unfold rotl_step
  split
  · exact allKeys_rotate_left h
  · exact h

theorem allKeys_rotr_step {p : α → Prop} {t : Tree α β} (h : AllKeys p t) :
    AllKeys p (rotr_step t) := by
  unfold rotr_step
  split
  · exact allKeys_rotate_right h
  · exact h

theorem allKeys_fixUp {p : α → Prop} {t : Tree α β} (h : AllKeys p t) :
    AllKeys p (fixUp t) :=
  allKeys_rotr_step (allKeys_rotl_step h)

end StepLemmas

section OrderStepLemmas

variable {α β : Type} [LinearOrder α]

theorem search_flip_colors (t : Tree α β) (q : α) :
    search (flip_colors t) q = search t q := by
  cases t <;> simp [flip_colors, search]

theorem bst_flip_colors {t : Tree α β} (h : BST t) : BST (flip_colors t) := by
  cases t with
  | nil => exact h
  | node k v r l c =>
    rw [bst_node_iff] at h
    obtain ⟨hal, har, hbl, hbr⟩ := h
    exact (bst_node_iff).mpr ⟨(allKeys_flip_child l).mpr hal,
      (allKeys_flip_child r).mpr har, (bst_flip_child).mpr hbl,
      (bst_flip_child).mpr hbr⟩

theorem search_flip_step (t : Tree α β) (q : α) :
    search (flip_step t) q = search t q := by
  unfold flip_step
  split
  · exact search_flip_colors t q
  · rfl

theorem bst_flip_step {t : Tree α β} (h : BST t) : BST (flip_step t) := by
  unfold flip_step
  split
  · exact bst_flip_colors h
  · exact h

theorem bst_rotl_step {t : Tree α β} (h : BST t) : BST (rotl_step t) := by
  unfold rotl_step
  split
  · exact bst_rotate_left h
  · exact h

theorem bst_rotr_step {t : Tree α β} (h : BST t) : BST (rotr_step t) := by
  unfold rotr_step
  split
  · exact bst_rotate_right h
  · exact h

theorem bst_fixUp {t : Tree α β} (h : BST t) : BST (fixUp t) :=
  bst_rotr_step (bst_rotl_step h)

theorem search_rotl_step {t : Tree α β} (h : BST t) (q : α) :
    search (rotl_step t) q = search t q := by
  unfold rotl_step
  split
  · exact search_rotate_left h q
  · rfl

theorem search_rotr_step {t : Tree α β} (h : BST t) (q : α) :
    search (rotr_step t) q = search t q := by
  unfold rotr_step
  split
  · exact search_rotate_right h q
  · rfl

theorem search_fixUp {t : Tree α β} (h : BST t) (q : α) :
    search (fixUp t) q = search t q := by
  unfold fixUp
  rw [search_rotr_step (bst_rotl_step h), search_rotl_step h]

end OrderStepLemmas

/-! ## Unfolding lemmas for `insertFuel`. -/

section InsertUnfold

variable {α β : Type}

theorem flip_step_pos {k : α} {v : β} {r l : Tree α β} {c : PyColor}
    (hg : (is_red l && is_red r) = true) :
    flip_step (Tree.node k v r l c) =
      Tree.node k v (flip_child r) (flip_child l) c.pyNot := by
  unfold flip_step
  simp only [Tree.left, Tree.right, hg, if_true, flip_colors]

theorem flip_step_neg {k : α} {v : β} {r l : Tree α β} {c : PyColor}
    (hg : (is_red l && is_red r) = false) :
    flip_step (Tree.node k v r l c) = Tree.node k v r l c := by
  unfold flip_step
  simp only [Tree.left, Tree.right, hg, Bool.false_eq_true, if_false]

variable [LinearOrder α]

theorem insertFuel_nil (f : Nat) (key : α) (value : β) :
    insertFuel (f + 1) (Tree.nil : Tree α β) key value =
      Tree.node key value .nil .nil .rbBlack := by
  simp [insertFuel, flip_step, Tree.left, Tree.right, is_red, fixUp,
    rotl_step, rotr_step]

theorem insertFuel_node_flip (f : Nat) (k : α) (v : β) (r l : Tree α β)
    (c : PyColor) (key : α) (value : β)
    (hg : (is_red l && is_red r) = true) :
    insertFuel (f + 1) (Tree.node k v r l c) key value =
      fixUp (if key = k then
               Tree.node k value (flip_child r) (flip_child l) c.pyNot
             else if key < k then
               Tree.node k v (flip_child r) (insertFuel f (flip_child l) key value) c.pyNot
             else
               Tree.node k v (insertFuel f (flip_child r) key value) (flip_child l) c.pyNot) := by
  conv_lhs => simp only [insertFuel]
  rw [flip_step_pos hg]

theorem insertFuel_node_noflip (f : Nat) (k : α) (v : β) (r l : Tree α β)
    (c : PyColor) (key : α) (value : β)
    (hg : (is_red l && is_red r) = false) :
    insertFuel (f + 1) (Tree.node k v r l c) key value =
      fixUp (if key = k then Tree.node k value r l c
             else if key < k then
               Tree.node k v r (insertFuel f l key value) c
             else
               Tree.node k v (insertFuel f r key value) l c) := by
  conv_lhs => simp only [insertFuel]
  rw [flip_step_neg hg]

end InsertUnfold

/-! ## Main properties of `insert`. -/

section InsertLemmas

variable {α β : Type} [LinearOrder α]

theorem allKeys_insertFuel {p : α → Prop} :
    ∀ (fuel : Nat) (t : Tree α β) (key : α) (value : β),
      node_len t < fuel → AllKeys p t → p key →
      AllKeys p (insertFuel fuel t key value) := by
  intro fuel
  induction fuel with
  | zero => intro t key value h; omega
  | succ f ih =>
    intro t key value hlen hall hp
    cases t with
    | nil =>
      rw [insertFuel_nil]
      exact ⟨hp, trivial, trivial⟩
    | node k v r l c =>
      have hlenl : node_len l < f := by simp [node_len] at hlen; omega
      have hlenr : node_len r < f := by simp [node_len] at hlen; omega
      obtain ⟨hk, hl, hr⟩ := hall
      rcases Bool.eq_false_or_eq_true (is_red l && is_red r) with hg | hg
      · rw [insertFuel_node_flip f k v r l c key value hg]
        refine allKeys_fixUp ?_
        split_ifs
        · exact ⟨hk, (allKeys_flip_child l).mpr hl, (allKeys_flip_child r).mpr hr⟩
        · exact ⟨hk,
            ih (flip_child l) key value (by simpa using hlenl)
              ((allKeys_flip_child l).mpr hl) hp,
            (allKeys_flip_child r).mpr hr⟩
        · exact ⟨hk, (allKeys_flip_child l).mpr hl,
            ih (flip_child r) key value (by simpa using hlenr)
              ((allKeys_flip_child r).mpr hr) hp⟩
      · rw [insertFuel_node_noflip f k v r l c key value hg]
        refine allKeys_fixUp ?_
        split_ifs
        · exact ⟨hk, hl, hr⟩
        · exact ⟨hk, ih l key value hlenl hl hp, hr⟩
        · exact ⟨hk, hl, ih r key value hlenr hr hp⟩

theorem bst_insertFuel :
    ∀ (fuel : Nat) (t : Tree α β) (key : α) (value : β),
      node_len t < fuel → BST t → BST (insertFuel fuel t key value) := by
  intro fuel
  induction fuel with
  | zero => intro t key value h; omega
  | succ f ih =>
    intro t key value hlen hbst
    cases t with
    | nil =>
      rw [insertFuel_nil]
      exact (bst_node_iff).mpr ⟨trivial, trivial, .nil, .nil⟩
    | node k v r l c =>
      have hlenl : node_len l < f := by simp [node_len] at hlen; omega
      have hlenr : node_len r < f := by simp [node_len] at hlen; omega
      rw [bst_node_iff] at hbst
      obtain ⟨hal, har, hbl, hbr⟩ := hbst
      rcases Bool.eq_false_or_eq_true (is_red l && is_red r) with hg | hg
      · rw [insertFuel_node_flip f k v r l c key value hg]
        refine bst_fixUp ?_
        split_ifs with h1 h2
        · exact (bst_node_iff).mpr ⟨(allKeys_flip_child l).mpr hal,
            (allKeys_flip_child r).mpr har, (bst_flip_child).mpr hbl,
            (bst_flip_child).mpr hbr⟩
        · exact (bst_node_iff).mpr
            ⟨allKeys_insertFuel f (flip_child l) key value (by simpa using hlenl)
               ((allKeys_flip_child l).mpr hal) h2,
             (allKeys_flip_child r).mpr har,
             ih (flip_child l) key value (by simpa using hlenl) ((bst_flip_child).mpr hbl),
             (bst_flip_child).mpr hbr⟩
        · have hk : k < key := lt_of_le_of_ne (not_lt.mp h2) (fun e => h1 e.symm)
          exact (bst_node_iff).mpr
            ⟨(allKeys_flip_child l).mpr hal,
             allKeys_insertFuel f (flip_child r) key value (by simpa using hlenr)
               ((allKeys_flip_child r).mpr har) hk,
             (bst_flip_child).mpr hbl,
             ih (flip_child r) key value (by simpa using hlenr) ((bst_flip_child).mpr hbr)⟩
      · rw [insertFuel_node_noflip f k v r l c key value hg]
        refine bst_fixUp ?_
        split_ifs with h1 h2
        · exact (bst_node_iff).mpr ⟨hal, har, hbl, hbr⟩
        · exact (bst_node_iff).mpr
            ⟨allKeys_insertFuel f l key value hlenl hal h2, har,
             ih l key value hlenl hbl, hbr⟩
        · have hk : k < key := lt_of_le_of_ne (not_lt.mp h2) (fun e => h1 e.symm)
          exact (bst_node_iff).mpr
            ⟨hal, allKeys_insertFuel f r key value hlenr har hk,
             hbl, ih r key value hlenr hbr⟩

theorem search_insertFuel :
    ∀ (fuel : Nat) (t : Tree α β) (key : α) (value : β) (q : α),
      node_len t < fuel → BST t →
      search (insertFuel fuel t key value) q =
        if q = key then some value else search t q := by
  intro fuel
  induction fuel with
  | zero => intro t key value q h; omega
  | succ f ih =>
    intro t key value q hlen hbst
    cases t with
    | nil =>
      rw [insertFuel_nil]
      simp only [search]
      split_ifs <;> rfl
    | node k v r l c =>
      have hlenl : node_len l < f := by simp [node_len] at hlen; omega
      have hlenr : node_len r < f := by simp [node_len] at hlen; omega
      rw [bst_node_iff] at hbst
      obtain ⟨hal, har, hbl, hbr⟩ := hbst
      rcases Bool.eq_false_or_eq_true (is_red l && is_red r) with hg | hg
      · rw [insertFuel_node_flip f k v r l c key value hg]
        by_cases h1 : key = k
        · rw [if_pos h1]
          have hb2 : BST (Tree.node k value (flip_child r) (flip_child l) c.pyNot) :=
            (bst_node_iff).mpr ⟨(allKeys_flip_child l).mpr hal,
              (allKeys_flip_child r).mpr har, (bst_flip_child).mpr hbl,
              (bst_flip_child).mpr hbr⟩
          rw [search_fixUp hb2]
          subst h1
          simp only [search, search_flip_child]
          rcases eq_or_ne q key with hq | hq <;> simp [hq]
        · by_cases h2 : key < k
          · rw [if_neg h1, if_pos h2]
            have hb2 : BST (Tree.node k v (flip_child r)
                (insertFuel f (flip_child l) key value) c.pyNot) :=
              (bst_node_iff).mpr
                ⟨allKeys_insertFuel f (flip_child l) key value (by simpa using hlenl)
                   ((allKeys_flip_child l).mpr hal) h2,
                 (allKeys_flip_child r).mpr har,
                 bst_insertFuel f (flip_child l) key value (by simpa using hlenl)
                   ((bst_flip_child).mpr hbl),
                 (bst_flip_child).mpr hbr⟩
            rw [search_fixUp hb2]
            simp only [search, search_flip_child]
            rw [ih (flip_child l) key value q (by simpa using hlenl)
              ((bst_flip_child).mpr hbl), search_flip_child]
            rcases eq_or_ne q key with hq | hq
            · subst hq; simp [h1, h2]
            · simp [hq]
          · rw [if_neg h1, if_neg h2]
            have hk : k < key := lt_of_le_of_ne (not_lt.mp h2) (fun e => h1 e.symm)
            have hb2 : BST (Tree.node k v
                (insertFuel f (flip_child r) key value) (flip_child l) c.pyNot) :=
              (bst_node_iff).mpr
                ⟨(allKeys_flip_child l).mpr hal,
                 allKeys_insertFuel f (flip_child r) key value (by simpa using hlenr)
                   ((allKeys_flip_child r).mpr har) hk,
                 (bst_flip_child).mpr hbl,
                 bst_insertFuel f (flip_child r) key value (by simpa using hlenr)
                   ((bst_flip_child).mpr hbr)⟩
            rw [search_fixUp hb2]
            simp only [search, search_flip_child]
            rw [ih (flip_child r) key value q (by simpa using hlenr)
              ((bst_flip_child).mpr hbr), search_flip_child]
            rcases eq_or_ne q key with hq | hq
            · subst hq; simp [h1, h2]
            · simp [hq]
      · rw [insertFuel_node_noflip f k v r l c key value hg]
        by_cases h1 : key = k
        · rw [if_pos h1]
          have hb2 : BST (Tree.node k value r l c) :=
            (bst_node_iff).mpr ⟨hal, har, hbl, hbr⟩
          rw [search_fixUp hb2]
          subst h1
          simp only [search]
          rcases eq_or_ne q key with hq | hq <;> simp [hq]
        · by_cases h2 : key < k
          · rw [if_neg h1, if_pos h2]
            have hb2 : BST (Tree.node k v r (insertFuel f l key value) c) :=
              (bst_node_iff).mpr
                ⟨allKeys_insertFuel f l key value hlenl hal h2, har,
                 bst_insertFuel f l key value hlenl hbl, hbr⟩
            rw [search_fixUp hb2]
            simp only [search]
            rw [ih l key value q hlenl hbl]
            rcases eq_or_ne q key with hq | hq
            · subst hq; simp [h1, h2]
            · simp [hq]
          · rw [if_neg h1, if_neg h2]
            have hk : k < key := lt_of_le_of_ne (not_lt.mp h2) (fun e => h1 e.symm)
            have hb2 : BST (Tree.node k v (insertFuel f r key value) l c) :=
              (bst_node_iff).mpr
                ⟨hal, allKeys_insertFuel f r key value hlenr har hk,
                 hbl, bst_insertFuel f r key value hlenr hbr⟩
            rw [search_fixUp hb2]
            simp only [search]
            rw [ih r key value q hlenr hbr]
            rcases eq_or_ne q key with hq | hq
            · subst hq; simp [h1, h2]
            · simp [hq]

theorem node_len_insertFuel :
    ∀ (fuel : Nat) (t : Tree α β) (key : α) (value : β),
      node_len t < fuel →
      node_len (insertFuel fuel t key value) =
        node_len t + (if (search t key).isSome then 0 else 1) := by
  intro fuel
  induction fuel with
  | zero => intro t key value h; omega
  | succ f ih =>
    intro t key value hlen
    cases t with
    | nil =>
      rw [insertFuel_nil]
      simp [node_len, search]
    | node k v r l c =>
      have hlenl : node_len l < f := by simp [node_len] at hlen; omega
      have hlenr : node_len r < f := by simp [node_len] at hlen; omega
      rcases Bool.eq_false_or_eq_true (is_red l && is_red r) with hg | hg
      · rw [insertFuel_node_flip f k v r l c key value hg, node_len_fixUp]
        by_cases h1 : key = k
        · subst h1
          simp [node_len, search]
        · by_cases h2 : key < k
          · rw [if_neg h1, if_pos h2]
            simp only [node_len, node_len_flip_child]
            rw [ih (flip_child l) key value (by simpa using hlenl), node_len_flip_child,
              search_flip_child]
            simp only [search, if_neg h1, if_pos h2]
            omega
          · rw [if_neg h1, if_neg h2]
            simp only [node_len, node_len_flip_child]
            rw [ih (flip_child r) key value (by simpa using hlenr), node_len_flip_child,
              search_flip_child]
            simp only [search, if_neg h1, if_neg h2]
            omega
      · rw [insertFuel_node_noflip f k v r l c key value hg, node_len_fixUp]
        by_cases h1 : key = k
        · subst h1
          simp [node_len, search]
        · by_cases h2 : key < k
          · rw [if_neg h1, if_pos h2]
            simp only [node_len]
            rw [ih l key value hlenl]
            simp only [search, if_neg h1, if_pos h2]
            omega
          · rw [if_neg h1, if_neg h2]
            simp only [node_len]
            rw [ih r key value hlenr]
            simp only [search, if_neg h1, if_neg h2]
            omega

theorem bst_insert {t : Tree α β} (key : α) (value : β) (h : BST t) :
    BST (insert t key value) :=
  bst_insertFuel (node_len t + 1) t key value (Nat.lt_succ_self _) h

theorem search_insert {t : Tree α β} (key : α) (value : β) (q : α) (h : BST t) :
    search (insert t key value) q = if q = key then some value else search t q :=
  search_insertFuel (node_len t + 1) t key value q (Nat.lt_succ_self _) h

theorem node_len_insert (t : Tree α β) (key : α) (value : β) :
    node_len (insert t key value) =
      node_len t + (if (search t key).isSome then 0 else 1) :=
  node_len_insertFuel (node_len t + 1) t key value (Nat.lt_succ_self _)

theorem bst_foldl_insert (ps : List (α × β)) :
    ∀ t : Tree α β, BST t → BST (ps.foldl (fun t p => insert t p.1 p.2) t) := by
  induction ps with
  | nil => intro t h; exact h
  | cons p rest ih =>
    intro t h
    exact ih (insert t p.1 p.2) (bst_insert p.1 p.2 h)

theorem bst_buildTree (ps : List (α × β)) : BST (buildTree ps) :=
  bst_foldl_insert ps .nil .nil

theorem search_foldl_insert (k : α) (ps : List (α × β)) :
    ∀ t : Tree α β, BST t →
      search (ps.foldl (fun t p => insert t p.1 p.2) t) k =
        ps.foldl (fun acc p => if p.1 = k then some p.2 else acc) (search t k) := by
  induction ps with
  | nil => intro t _; rfl
  | cons p rest ih =>
    intro t hb
    simp only [List.foldl_cons]
    rw [ih (insert t p.1 p.2) (bst_insert p.1 p.2 hb), search_insert p.1 p.2 k hb]
    rcases eq_or_ne p.1 k with hp | hp
    · simp [hp]
    · simp [hp, Ne.symm hp]

theorem search_buildTree (ps : List (α × β)) (k : α) :
    search (buildTree ps) k =
      ps.foldl (fun acc p => if p.1 = k then some p.2 else acc) none := by
  have h := search_foldl_insert k ps .nil .nil
  simpa [search] using h

theorem foldl_last_of_no_key (k : α) (v : β) (l2 : List (α × β))
    (h : ∀ p ∈ l2, p.1 ≠ k) :
    l2.foldl (fun acc p => if p.1 = k then some p.2 else acc) (some v) = some v := by
  induction l2 with
  | nil => rfl
  | cons p rest ih =>
    simp only [List.foldl_cons, if_neg (h p (List.mem_cons_self p rest))]
    exact ih (fun q hq => h q (List.mem_cons_of_mem p hq))

omit [LinearOrder α] in
theorem mem_keysList_of_allKeys {p : α → Prop} :
    ∀ {t : Tree α β}, AllKeys p t → ∀ x ∈ keysList t, p x := by
  intro t
  induction t with
  | nil => intro _ x hx; simp [keysList] at hx
  | node k v r l c ihr ihl =>
    intro h x hx
    obtain ⟨hk, hl, hr⟩ := h
    simp only [keysList, List.mem_append, List.mem_cons] at hx
    rcases hx with hx | hx | hx
    · exact ihl hl x hx
    · exact hx ▸ hk
    · exact ihr hr x hx

theorem pairwise_keysList {t : Tree α β} (h : BST t) :
    List.Pairwise (· < ·) (keysList t) := by
  induction t with
  | nil => simp [keysList]
  | node k v r l c ihr ihl =>
    rw [bst_node_iff] at h
    obtain ⟨hal, har, hbl, hbr⟩ := h
    simp only [keysList]
    rw [List.pairwise_append]
    refine ⟨ihl hbl, ?_, ?_⟩
    · rw [List.pairwise_cons]
      exact ⟨mem_keysList_of_allKeys har, ihr hbr⟩
    · intro a ha b hb
      have hak : a < k := mem_keysList_of_allKeys hal a ha
      rcases List.mem_cons.mp hb with hb | hb
      · exact hb ▸ hak
      · exact lt_trans hak (mem_keysList_of_allKeys har b hb)

end InsertLemmas

/-! ## Heap-level embedding of `insert`, for the persistence claim.

Python objects live on a heap; `dataclasses.replace` and the `RBNode`
constructor allocate fresh objects and never mutate existing ones.  To
state that `insert` never modifies a node reachable from the old root,
we model the heap explicitly: nodes are records whose children are
*addresses* (`Option Nat`, `none` for Python `None`), a store maps
addresses to records, and every `replace`/constructor call in the
source becomes an allocation at the next fresh address. -/

/-- A heap-allocated `RBNode`: children are addresses. -/
structure HNode (α β : Type) : Type where
  key : α
  value : β
  right : Option Nat
  left : Option Nat
  color : PyColor

/-- A heap: contents of each address, plus the next fresh address. -/
structure Store (α β : Type) : Type where
  mem : Nat → Option (HNode α β)
  next : Nat

/-- Allocate a record at the next fresh address. -/
def Store.alloc (σ : Store α β) (nd : HNode α β) : Store α β × Nat :=
  (⟨fun a => if a = σ.next then some nd else σ.mem a, σ.next + 1⟩, σ.next)

/-- `σ'` extends `σ`: no address already allocated in `σ` is changed. -/
def Store.ext (σ σ' : Store α β) : Prop :=
  σ.next ≤ σ'.next ∧ ∀ a, a < σ.next → σ'.mem a = σ.mem a

/-- Every allocated record only points below the allocation frontier
(true of every store the program can build). -/
def Store.closed (σ : Store α β) : Prop :=
  ∀ a, a < σ.next → ∀ nd, σ.mem a = some nd →
    (∀ b, nd.left = some b → b < σ.next) ∧ (∀ b, nd.right = some b → b < σ.next)

/-- A root reference is valid when it points below the frontier. -/
def validRoot (σ : Store α β) : Option Nat → Prop
  | none => True
  | some a => a < σ.next

/-- `is_red` on the heap. -/
def is_redH (σ : Store α β) : Option Nat → Bool
  | none => false
  | some a =>
    match σ.mem a with
    | none => false
    | some nd => nd.color.truthy

/-- `x.left` on the heap (through a reference). -/
def leftOfH (σ : Store α β) : Option Nat → Option Nat
  | none => none
  | some a =>
    match σ.mem a with
    | none => none
    | some nd => nd.left

/-- `x.right` on the heap (through a reference). -/
def rightOfH (σ : Store α β) : Option Nat → Option Nat
  | none => none
  | some a =>
    match σ.mem a with
    | none => none
    | some nd => nd.right

/-- `flip_colors` on the heap: three `replace` calls, three fresh
allocations.  `none` models a Python fault (dangling address or absent
child), which `insert`'s guards prevent. -/
def flip_colorsH (σ : Store α β) (a : Nat) : Option (Store α β × Nat) :=
  match σ.mem a with
  | none => none
  | some nd =>
    match nd.left, nd.right with
    | some al, some ar =>
      match σ.mem al, σ.mem ar with
      | some ndl, some ndr =>
        let p1 := σ.alloc { ndl with color := ndl.color.pyNot }
        let p2 := p1.1.alloc { ndr with color := ndr.color.pyNot }
        let p3 := p2.1.alloc
          { nd with color := nd.color.pyNot, left := some p1.2, right := some p2.2 }
        some (p3.1, p3.2)
      | _, _ => none
    | _, _ => none

/-- `rotate_left` on the heap: two `replace` calls, two allocations. -/
def rotate_leftH (σ : Store α β) (a : Nat) : Option (Store α β × Nat) :=
  match σ.mem a with
  | none => none
  | some nd =>
    match nd.right with
    | none => none
    | some ar =>
      match σ.mem ar with
      | none => none
      | some ndr =>
        let p1 := σ.alloc { nd with right := ndr.left, color := PyColor.rbRed }
        let p2 := p1.1.alloc { ndr with left := some p1.2, color := nd.color }
        some (p2.1, p2.2)

/-- `rotate_right` on the heap: mirror image. -/
def rotate_rightH (σ : Store α β) (a : Nat) : Option (Store α β × Nat) :=
  match σ.mem a with
  | none => none
  | some nd =>
    match nd.left with
    | none => none
    | some al =>
      match σ.mem al with
      | none => none
      | some ndl =>
        let p1 := σ.alloc { nd with left := ndl.right, color := PyColor.rbRed }
        let p2 := p1.1.alloc { ndl with right := some p1.2, color := nd.color }
        some (p2.1, p2.2)

/-- The two rebalancing steps of `insert`, on the heap. -/
def balanceH (σ : Store α β) (a : Nat) : Option (Store α β × Nat) :=
  match (if is_redH σ (rightOfH σ (some a)) && !(is_redH σ (leftOfH σ (some a)))
         then rotate_leftH σ a else some (σ, a)) with
  | none => none
  | some p =>
    if is_redH p.1 (leftOfH p.1 (some p.2)) &&
       is_redH p.1 (leftOfH p.1 (leftOfH p.1 (some p.2)))
    then rotate_rightH p.1 p.2 else some p

/-- `insert` on the heap, fuel-indexed; mirrors the source line by
line, with one allocation per `RBNode(...)`/`replace(...)` call. -/
def insertH [LinearOrder α] : Nat → Store α β → Option Nat → α → β →
    Option (Store α β × Nat)
  | 0, _, _, _, _ => none
  | fuel + 1, σ, h, key, value =>
    let p0 := match h with
      | none => σ.alloc ⟨key, value, none, none, .rbBlack⟩
      | some a => (σ, a)
    match p0.1.mem p0.2 with
    | none => none
    | some nd =>
      match (if is_redH p0.1 nd.left && is_redH p0.1 nd.right
             then flip_colorsH p0.1 p0.2 else some p0) with
      | none => none
      | some p1 =>
        match p1.1.mem p1.2 with
        | none => none
        | some nd1 =>
          match (if key = nd1.key then some (p1.1.alloc { nd1 with value := value })
                 else if key < nd1.key then
                   match insertH fuel p1.1 nd1.left key value with
                   | none => none
                   | some p2 => some (p2.1.alloc { nd1 with left := some p2.2 })
                 else
                   match insertH fuel p1.1 nd1.right key value with
                   | none => none
                   | some p2 => some (p2.1.alloc { nd1 with right := some p2.2 })) with
          | none => none
          | some p3 => balanceH p3.1 p3.2

/-- Read a tree value out of the heap (fuel-indexed; with enough fuel
this is the tree reachable from the reference). -/
def decode : Nat → Store α β → Option Nat → Tree α β
  | 0, _, _ => .nil
  | _ + 1, _, none => .nil
  | n + 1, σ, some a =>
    match σ.mem a with
    | none => .nil
    | some nd => .node nd.key nd.value (decode n σ nd.right) (decode n σ nd.left) nd.color

section HeapLemmas

variable {α β : Type}

theorem Store.ext_refl (σ : Store α β) : σ.ext σ :=
  ⟨le_refl _, fun _ _ => rfl⟩

theorem Store.ext_trans {σ σ' σ'' : Store α β}
    (h1 : σ.ext σ') (h2 : σ'.ext σ'') : σ.ext σ'' := by
  refine ⟨le_trans h1.1 h2.1, fun a ha => ?_⟩
  rw [h2.2 a (lt_of_lt_of_le ha h1.1), h1.2 a ha]

theorem Store.ext_alloc (σ : Store α β) (nd : HNode α β) :
    σ.ext (σ.alloc nd).1 := by
  refine ⟨Nat.le_succ _, fun a ha => ?_⟩
  simp only [Store.alloc]
  rw [if_neg (by omega)]

theorem flip_colorsH_ext {σ σ' : Store α β} {a r' : Nat}
    (h : flip_colorsH σ a = some (σ', r')) : σ.ext σ' := by
  unfold flip_colorsH at h
  repeat' split at h
  any_goals exact Option.noConfusion h
  rw [Option.some_inj] at h
  have h1 := congrArg Prod.fst h
  simp only at h1
  rw [← h1]
  exact Store.ext_trans (Store.ext_alloc _ _)
    (Store.ext_trans (Store.ext_alloc _ _) (Store.ext_alloc _ _))

theorem rotate_leftH_ext {σ σ' : Store α β} {a r' : Nat}
    (h : rotate_leftH σ a = some (σ', r')) : σ.ext σ' := by
  unfold rotate_leftH at h
  repeat' split at h
  any_goals exact Option.noConfusion h
  rw [Option.some_inj] at h
  have h1 := congrArg Prod.fst h
  simp only at h1
  rw [← h1]
  exact Store.ext_trans (Store.ext_alloc _ _) (Store.ext_alloc _ _)

theorem rotate_rightH_ext {σ σ' : Store α β} {a r' : Nat}
    (h : rotate_rightH σ a = some (σ', r')) : σ.ext σ' := by
  unfold rotate_rightH at h
  repeat' split at h
  any_goals exact Option.noConfusion h
  rw [Option.some_inj] at h
  have h1 := congrArg Prod.fst h
  simp only at h1
  rw [← h1]
  exact Store.ext_trans (Store.ext_alloc _ _) (Store.ext_alloc _ _)

theorem balanceH_ext {σ σ' : Store α β} {a r' : Nat}
    (h : balanceH σ a = some (σ', r')) : σ.ext σ' := by
  unfold balanceH at h
  split at h
  · exact Option.noConfusion h
  · rename_i p heq
    obtain ⟨pσ, pa⟩ := p
    have hp : σ.ext pσ := by
      split at heq
      · exact rotate_leftH_ext heq
      · rw [Option.some_inj] at heq
        have h1 := congrArg Prod.fst heq
        simp only at h1
        rw [h1]
        exact Store.ext_refl pσ
    split at h
    · exact Store.ext_trans hp (rotate_rightH_ext h)
    · rw [Option.some_inj] at h
      have h1 := congrArg Prod.fst h
      simp only at h1
      rw [← h1]
      exact hp

theorem fst_of_pair_eq {σ1 σ2 : Store α β} {a1 a2 : Nat}
    (h : (σ1, a1) = (σ2, a2)) : σ1 = σ2 := by
  have h1 := congrArg Prod.fst h
  simpa using h1

theorem insertH_ext [LinearOrder α] :
    ∀ (fuel : Nat) (σ : Store α β) (root : Option Nat) (key : α) (value : β)
      {σ' : Store α β} {r' : Nat},
      insertH fuel σ root key value = some (σ', r') → σ.ext σ' := by
  intro fuel
  induction fuel with
  | zero =>
    intro σ root key value σ' r' h
    exact Option.noConfusion h
  | succ f ih =>
    intro σ root key value σ' r' h
    simp only [insertH] at h
    generalize hg : (match root with
      | none => σ.alloc { key := key, value := value, right := none, left := none, color := PyColor.rbBlack }
      | some a => (σ, a)) = p0 at h
    obtain ⟨σ0, a0⟩ := p0
    have e0 : σ.ext σ0 := by
      match root, hg with
      | none, hg => exact (fst_of_pair_eq hg) ▸ Store.ext_alloc σ _
      | some a, hg => exact (fst_of_pair_eq hg) ▸ Store.ext_refl σ
    clear hg
    split at h
    · exact Option.noConfusion h
    · rename_i nd heq0
      split at h
      · exact Option.noConfusion h
      · rename_i p1 heq1
        obtain ⟨σ1, a1⟩ := p1
        have e1 : σ0.ext σ1 := by
          split at heq1
          · exact flip_colorsH_ext heq1
          · rw [Option.some_inj] at heq1
            exact (fst_of_pair_eq heq1) ▸ Store.ext_refl σ0
        split at h
        · exact Option.noConfusion h
        · rename_i nd1 heq2
          split at h
          · exact Option.noConfusion h
          · rename_i p3 heq3
            obtain ⟨σ3, a3⟩ := p3
            have e3 : σ1.ext σ3 := by
              split at heq3
              · rw [Option.some_inj] at heq3
                exact (fst_of_pair_eq heq3) ▸ Store.ext_alloc σ1 _
              · split at heq3
                · split at heq3
                  · exact Option.noConfusion heq3
                  · rename_i p2 heq4
                    obtain ⟨σ2, a2⟩ := p2
                    rw [Option.some_inj] at heq3
                    exact (fst_of_pair_eq heq3) ▸
                      Store.ext_trans (ih σ1 nd1.left key value heq4)
                        (Store.ext_alloc σ2 _)
                · split at heq3
                  · exact Option.noConfusion heq3
                  · rename_i p2 heq4
                    obtain ⟨σ2, a2⟩ := p2
                    rw [Option.some_inj] at heq3
                    exact (fst_of_pair_eq heq3) ▸
                      Store.ext_trans (ih σ1 nd1.right key value heq4)
                        (Store.ext_alloc σ2 _)
            exact Store.ext_trans e0 (Store.ext_trans e1
              (Store.ext_trans e3 (balanceH_ext h)))

theorem decode_agree {σ σ' : Store α β} (hext : σ.ext σ') (hcl : σ.closed) :
    ∀ (n : Nat) (r : Option Nat), validRoot σ r → decode n σ' r = decode n σ r := by
  intro n
  induction n with
  | zero => intro r _; rfl
  | succ m ih =>
    intro r hr
    cases r with
    | none => rfl
    | some a =>
      have ha : a < σ.next := hr
      have hm : σ'.mem a = σ.mem a := hext.2 a ha
      simp only [decode, hm]
      cases hnd : σ.mem a with
      | none => rfl
      | some nd =>
        have hc := hcl a ha nd hnd
        have hvl : validRoot σ nd.left := by
          cases hl : nd.left with
          | none => trivial
          | some b => exact hc.1 b hl
        have hvr : validRoot σ nd.right := by
          cases hl : nd.right with
          | none => trivial
          | some b => exact hc.2 b hl
        dsimp only
        rw [ih nd.right hvr, ih nd.left hvl]

end HeapLemmas

/-! ## The claims. -/

/-- C1: claimed — for every sequence of inserts starting from the empty
tree, every node of the result satisfies: no right-leaning red link, no
red node with a red left child, and equal black-link count on every
root-to-absent-child path.  The code violates this: inserting keys
1, 2, 3 (from the empty tree) yields a tree that fails the invariants
both when "red" is the program's own `is_red` test (the root passes
`is_red` and has a left child that passes `is_red`) and when "red" is
the declared color (the black-heights of the two root paths differ).
The root cause is that `RBColor.black` is a truthy `Enum` member, so
`is_red` misclassifies enum-black nodes as red, new nodes are created
with the default color `RBColor.black`, and no root is ever forced
black. -/
theorem C1_insert_breaks_invariants :
    llrbInvariants (buildTree [((1 : Nat), (10 : Nat)), (2, 20), (3, 30)]) = false ∧
    llrbInvariantsS (buildTree [((1 : Nat), (10 : Nat)), (2, 20), (3, 30)]) = false := by
  decide

/-- C2: for every key `k` inserted with value `v` and not followed by a
later insert of the same key, `Get` on the resulting mapping returns
`v`. -/
theorem C2_round_trip {α β : Type} [LinearOrder α]
    (l1 l2 : List (α × β)) (k : α) (v : β)
    (h : ∀ p ∈ l2, p.1 ≠ k) :
    search (buildTree (l1 ++ (k, v) :: l2)) k = some v := by
  rw [search_buildTree, List.foldl_append]
  simp only [List.foldl_cons, if_pos rfl]
  exact foldl_last_of_no_key k v l2 h

/-- Witness for C2 at a concrete input. -/
theorem C2_round_trip_witness :
    (∀ p ∈ [((2 : Nat), (30 : Nat))], p.1 ≠ 5) ∧
    search (buildTree ([((1 : Nat), (10 : Nat))] ++ ((5 : Nat), (7 : Nat)) :: [(2, 30)])) 5 =
      some 7 :=
  ⟨by decide, C2_round_trip [(1, 10)] [(2, 30)] 5 7 (by decide)⟩

/-- C3: persistence — a successful heap-level insert never modifies any
address allocated before it (in particular no node reachable from the
old root), so the old root decodes to the same tree afterwards and
`Get` (`search`), `Keys` (`keysList`) and `Length` (`node_len`) of the
old mapping are unchanged. -/
theorem C3_persistence {α β : Type} [LinearOrder α] (fuel : Nat)
    (σ σ' : Store α β) (root : Option Nat) (r' : Nat) (k : α) (v : β)
    (hins : insertH fuel σ root k v = some (σ', r'))
    (hcl : σ.closed) (hroot : validRoot σ root) :
    (∀ a, a < σ.next → σ'.mem a = σ.mem a) ∧
    (∀ n, decode n σ' root = decode n σ root) ∧
    (∀ n q, search (decode n σ' root) q = search (decode n σ root) q) ∧
    (∀ n, keysList (decode n σ' root) = keysList (decode n σ root)) ∧
    (∀ n, node_len (decode n σ' root) = node_len (decode n σ root)) := by
  have hext := insertH_ext fuel σ root k v hins
  have hdec := decode_agree hext hcl
  refine ⟨hext.2, fun n => hdec n root hroot, ?_, ?_, ?_⟩
  · intro n q
    rw [hdec n root hroot]
  · intro n
    rw [hdec n root hroot]
  · intro n
    rw [hdec n root hroot]

/-- A concrete one-node store: address 0 holds the node for key 1. -/
def sigmaC : Store Nat Nat :=
  ⟨fun a => if a = 0 then some ⟨1, 10, none, none, .rbBlack⟩ else none, 1⟩

theorem sigmaC_closed : sigmaC.closed := by
  intro a ha nd hnd
  have ha0 : a = 0 := Nat.lt_one_iff.mp ha
  subst ha0
  have hx : sigmaC.mem 0 = some (⟨1, 10, none, none, .rbBlack⟩ : HNode Nat Nat) := rfl
  rw [hx, Option.some_inj] at hnd
  rw [← hnd]
  exact ⟨fun b hb => Option.noConfusion hb, fun b hb => Option.noConfusion hb⟩

/-- Witness for C3 at a concrete input: inserting key 2 into the
one-node store leaves address 0 untouched. -/
theorem C3_persistence_witness :
    sigmaC.closed ∧
    (insertH 3 sigmaC (some 0) (2 : Nat) (20 : Nat)).isSome = true ∧
    (∀ a, a < sigmaC.next →
      ((insertH 3 sigmaC (some 0) (2 : Nat) (20 : Nat)).getD (sigmaC, 0)).1.mem a =
        sigmaC.mem a) := by
  refine ⟨sigmaC_closed, rfl, ?_⟩
  have h := C3_persistence 3 sigmaC
    ((insertH 3 sigmaC (some 0) (2 : Nat) (20 : Nat)).getD (sigmaC, 0)).1 (some 0)
    ((insertH 3 sigmaC (some 0) (2 : Nat) (20 : Nat)).getD (sigmaC, 0)).2 2 20
    rfl sigmaC_closed Nat.zero_lt_one
  exact h.1

/-- C4: for every non-empty mapping, regardless of insertion order, the
key sequence produced by `iter_keys` is strictly increasing. -/
theorem C4_keys_sorted {α β : Type} [LinearOrder α]
    (ps : List (α × β)) (_hne : ps ≠ []) :
    List.Chain' (· < ·) (keysList (buildTree ps)) :=
  (pairwise_keysList (bst_buildTree ps)).chain'

/-- Witness for C4 at a concrete input. -/
theorem C4_keys_sorted_witness :
    ([((3 : Nat), (1 : Nat)), (1, 2), (2, 3)] ≠ []) ∧
    List.Chain' (· < ·) (keysList (buildTree [((3 : Nat), (1 : Nat)), (1, 2), (2, 3)])) :=
  ⟨by decide, C4_keys_sorted [((3 : Nat), (1 : Nat)), (1, 2), (2, 3)] (by decide)⟩

/-- C5: inserting a key already present (with any new value) leaves the
node count unchanged and `Get` then returns the newly inserted value. -/
theorem C5_overwrite {α β : Type} [LinearOrder α]
    (ps : List (α × β)) (k : α) (w v : β)
    (hp : search (buildTree ps) k = some w) :
    node_len (insert (buildTree ps) k v) = node_len (buildTree ps) ∧
    search (insert (buildTree ps) k v) k = some v := by
  constructor
  · rw [node_len_insert, hp]
    simp
  · rw [search_insert k v k (bst_buildTree ps)]
    simp

/-- Witness for C5 at a concrete input. -/
theorem C5_overwrite_witness :
    search (buildTree [((1 : Nat), (10 : Nat)), (2, 20)]) 2 = some 20 ∧
    (node_len (insert (buildTree [((1 : Nat), (10 : Nat)), (2, 20)]) 2 99) =
       node_len (buildTree [((1 : Nat), (10 : Nat)), (2, 20)]) ∧
     search (insert (buildTree [((1 : Nat), (10 : Nat)), (2, 20)]) 2 99) 2 = some 99) :=
  ⟨by decide, C5_overwrite [((1 : Nat), (10 : Nat)), (2, 20)] 2 20 99 (by decide)⟩

/-- C6: claimed — `Contains` returns a boolean and never fails, for
every mapping including the empty one.  The code violates this on the
empty mapping: `__contains__` calls `self[key]`, `__getitem__` calls
`self.root.search(key)`, and the empty mapping's root is `None`, so the
attribute access raises `AttributeError`, which `Mapping.__contains__`
does not catch (it catches only `KeyError`). -/
theorem C6_contains_faults_on_empty :
    contains (Tree.nil : Tree Nat Nat) 0 = Except.error PyError.attributeError := by
  rfl

/-- C7: claimed — `Get` either returns the stored value or fails with
`KeyNotFound`, and raises no other error, for every mapping including
the empty one.  The code violates this on the empty mapping:
`__getitem__` evaluates `self.root.search(key)` with `root = None` and
raises `AttributeError` instead of `KeyError`. -/
theorem C7_getitem_faults_on_empty :
    getitem (Tree.nil : Tree Nat Nat) 0 = Except.error PyError.attributeError := by
  rfl

/-- C8: claimed — `flip_colors` inverts the color of the node and of
both children (red to black and black to red), and in particular during
insert a node with two red children becomes red.  The code violates
this: in the tree built by inserting 1, 2, 3, both children of the root
are red by the code's own `is_red` test and the root's declared color
is `RBColor.black` (black), yet `flip_colors` returns a node colored
`False` — still black under both readings — because Python's
`not RBColor.black` is `False`. -/
theorem C8_flip_colors_not_inverse :
    is_red (Tree.left (buildTree [((1 : Nat), (10 : Nat)), (2, 20), (3, 30)])) = true ∧
    is_red (Tree.right (buildTree [((1 : Nat), (10 : Nat)), (2, 20), (3, 30)])) = true ∧
    buildTree [((1 : Nat), (10 : Nat)), (2, 20), (3, 30)] =
      Tree.node 2 20 (Tree.node 3 30 .nil .nil .rbBlack)
        (Tree.node 1 10 .nil .nil .rbRed) .rbBlack ∧
    flip_colors (buildTree [((1 : Nat), (10 : Nat)), (2, 20), (3, 30)]) =
      Tree.node 2 20 (Tree.node 3 30 .nil .nil .pyFalse)
        (Tree.node 1 10 .nil .nil .pyFalse) .pyFalse ∧
    is_red (flip_colors (buildTree [((1 : Nat), (10 : Nat)), (2, 20), (3, 30)])) = false := by
  decide

/-- C9: claimed — inserting into an absent subtree yields a single node
with both children absent whose color is red.  The code violates the
color part: `RBNode(key, value)` takes the dataclass default color,
which is `RBColor.black`, so the new node's declared color is black
(the program's `is_red` nevertheless treats it as red, since the enum
member is truthy). -/
theorem C9_fresh_node_declared_black :
    insert (Tree.nil : Tree Nat Nat) 1 10 =
      Tree.node 1 10 .nil .nil .rbBlack := by
  rfl

/-- C10: mapping equality is structural equality of the underlying
trees, not equality of the logical entries: inserting the pairs
(1,10), (2,20), (3,30) in two different orders yields trees that are
not equal (their node colors differ) although they have the same keys,
the same length, and the same `Get` result for every key. -/
theorem C10_eq_is_structural :
    buildTree [((1 : Nat), (10 : Nat)), (2, 20), (3, 30)] ≠
      buildTree [((3 : Nat), (30 : Nat)), (2, 20), (1, 10)] ∧
    keysList (buildTree [((1 : Nat), (10 : Nat)), (2, 20), (3, 30)]) =
      keysList (buildTree [((3 : Nat), (30 : Nat)), (2, 20), (1, 10)]) ∧
    node_len (buildTree [((1 : Nat), (10 : Nat)), (2, 20), (3, 30)]) =
      node_len (buildTree [((3 : Nat), (30 : Nat)), (2, 20), (1, 10)]) ∧
    ∀ q : Nat,
      search (buildTree [((1 : Nat), (10 : Nat)), (2, 20), (3, 30)]) q =
        search (buildTree [((3 : Nat), (30 : Nat)), (2, 20), (1, 10)]) q := by
  refine ⟨by decide, by decide, by decide, ?_⟩
  intro q
  have e1 : buildTree [((1 : Nat), (10 : Nat)), (2, 20), (3, 30)] =
      Tree.node 2 20 (Tree.node 3 30 .nil .nil .rbBlack)
        (Tree.node 1 10 .nil .nil .rbRed) .rbBlack := by decide
  have e2 : buildTree [((3 : Nat), (30 : Nat)), (2, 20), (1, 10)] =
      Tree.node 2 20 (Tree.node 3 30 .nil .nil .rbRed)
        (Tree.node 1 10 .nil .nil .rbBlack) .rbBlack := by decide
  rw [e1, e2]
  simp only [search]

end Frozen
